import Mathlib

/-!
Shallow embedding of the rclone archive backend (backend/archive/zip/zip.go
and backend/archive/squashfs/squashfs.go): path normalization, namespace
(directory tree) construction, the query surface, windowed entry reads, and
the append-only zip write session.

Go strings are represented as lists of characters; the path functions below
mirror the Go standard library `path` and `strings` routines the source
calls.  The `fs/dirtree` package of the repository is not part of the given
sources, so its operations are modelled from the specification (each such
definition is marked).
-/

namespace ArchiveFs

/-- A Go string, represented as its list of characters. -/
abbrev GoStr := List Char

/-- strings.Trim(s, "/"): drop leading and trailing '/' characters. -/
def trimSlash (p : GoStr) : GoStr :=
  ((p.dropWhile (· = '/')).reverse.dropWhile (· = '/')).reverse

/-- strings.Split(s, "/") : split on '/', keeping empty fields. -/
def splitSlash : GoStr → List GoStr
  | [] => [[]]
  | c :: cs =>
    let r := splitSlash cs
    if c = '/' then [] :: r
    else
      match r with
      | s :: rest => (c :: s) :: rest
      | [] => [[c]]

/-- Join a list of segments with '/' between them. -/
def joinSlash : List GoStr → GoStr
  | [] => []
  | [s] => s
  | s :: rest => s ++ '/' :: joinSlash rest

/-- One step of the lexical cleaning loop of Go's path.Clean: ".." pops the
last accumulated segment (or is kept / dropped at the start, depending on
whether the path is rooted); any other segment is appended. -/
def cleanStep (rooted : Bool) (acc : List GoStr) (seg : GoStr) : List GoStr :=
  if seg = ['.', '.'] then
    match acc.getLast? with
    | some l => if l = ['.', '.'] then acc ++ [seg] else acc.dropLast
    | none => if rooted then [] else [seg]
  else acc ++ [seg]

/-- Go path.Clean: shortest lexically equivalent path (empty path maps to
".", repeated separators and "." segments removed, ".." resolved). -/
def pathClean (p : GoStr) : GoStr :=
  if p = [] then ['.']
  else
    let rooted := p.head? = some '/'
    let segs := (splitSlash p).filter (fun s => !(s == [] || s == ['.']))
    let out := segs.foldl (cleanStep rooted) []
    let s := (if rooted then ['/'] else []) ++ joinSlash out
    if s = [] then ['.'] else s

/-- Go path.Join for two elements: empty elements are skipped and the result
is cleaned; all-empty input yields the empty string. -/
def pathJoin (a b : GoStr) : GoStr :=
  if a = [] then (if b = [] then [] else pathClean b)
  else if b = [] then pathClean a
  else pathClean (a ++ '/' :: b)

/-- Everything after the last '/' of the string (empty when the string ends
in '/' or is empty). -/
def afterLastSlash (p : GoStr) : GoStr :=
  p.foldl (fun acc c => if c = '/' then [] else acc ++ [c]) []

/-- Drop trailing '/' characters. -/
def dropTrailingSlashes (p : GoStr) : GoStr :=
  (p.reverse.dropWhile (· = '/')).reverse

/-- Go path.Base: last element of the path after removing trailing slashes;
"." for the empty path, "/" for a path made only of slashes. -/
def pathBase (p : GoStr) : GoStr :=
  if p = [] then ['.']
  else
    let q := dropTrailingSlashes p
    let r := afterLastSlash q
    if r = [] then ['/'] else r

/-- The part of the path up to and including the last '/', or empty when
there is no '/'. -/
def beforeLastSlashIncl (p : GoStr) : GoStr :=
  (p.reverse.dropWhile (· ≠ '/')).reverse

/-- Go path.Dir: everything before the last '/', cleaned ("." when there is
no directory part). -/
def pathDir (p : GoStr) : GoStr :=
  pathClean (beforeLastSlashIncl p)

/-- Modelled from the spec: `parentDir` of the repository's fs/dirtree
package (not among the given sources) — the key of the directory holding an
entry: path.Dir with "." mapped to the empty (root) path. -/
def parentDir (p : GoStr) : GoStr :=
  let d := pathDir p
  if d = ['.'] then [] else d

/-- strings.TrimPrefix(s, pre): drop pre from the front when it is a prefix,
otherwise return s unchanged. -/
def goTrimPre (s pre : GoStr) : GoStr :=
  if pre.isPrefixOf s then s.drop pre.length else s

/-- strings.HasSuffix. -/
def goHasSuffix (s suf : GoStr) : Bool :=
  suf.isSuffixOf s

/-! ## Entries and the directory tree -/

/-- One raw entry decoded from an archive: its name (for zip the raw header
name, for squashfs the walk path), whether it is a directory, and its size.
Modification times are not needed by any verified property and are omitted. -/
structure RawEntry where
  name : GoStr
  isDir : Bool
  size : Int
deriving DecidableEq, Repr

/-- A node stored in the directory tree: a (synthesized or explicit)
directory, or a file object with its remote path and size. -/
inductive DEntry where
  | dir (remote : GoStr)
  | file (remote : GoStr) (size : Int)
deriving DecidableEq, Repr

/-- The remote path of a tree node. -/
def DEntry.remote : DEntry → GoStr
  | .dir r => r
  | .file r _ => r

/-- Is the node a file? -/
def DEntry.isFile : DEntry → Bool
  | .dir _ => false
  | .file _ _ => true

/-- Modelled from the spec: the repository's fs/dirtree DirTree (not among
the given sources) — a mapping from normalized directory path to the list of
that directory's direct children, represented as an association list with
unique keys. -/
abbrev DirTree := List (GoStr × List DEntry)

/-- Modelled from the spec: a fresh tree; "an archive with zero entries
yields an empty root directory", so the root key is present from the start. -/
def dtNew : DirTree := [([], [])]

/-- Look a key up in the tree. -/
def dtLookup : DirTree → GoStr → Option (List DEntry)
  | [], _ => none
  | (k, es) :: t, d => if k = d then some es else dtLookup t d

/-- Append a child to the list held under key k, creating the key if it is
absent. -/
def dtAddChild : DirTree → GoStr → DEntry → DirTree
  | [], k, e => [(k, [e])]
  | (k', es) :: t, k, e =>
    if k' = k then (k', es ++ [e]) :: t else (k', es) :: dtAddChild t k e

/-- Make sure key k exists in the tree (with no children when created). -/
def dtEnsureKey : DirTree → GoStr → DirTree
  | [], k => [(k, [])]
  | (k', es) :: t, k =>
    if k' = k then (k', es) :: t else (k', es) :: dtEnsureKey t k

/-- Modelled from the spec: dirtree Add — record an entry as a child of its
immediate parent directory. -/
def dtAdd (t : DirTree) (e : DEntry) : DirTree :=
  dtAddChild t (parentDir e.remote) e

/-- Modelled from the spec: dirtree AddDir — "insert a directory node at
that path": list the directory in its parent and make sure its own key
exists; a marker for the root itself only makes sure the root key exists. -/
def dtAddDir (t : DirTree) (r : GoStr) : DirTree :=
  if r = [] then dtEnsureKey t []
  else dtEnsureKey (dtAddChild t (parentDir r) (.dir r)) r

/-- The keys (directory paths) of the tree. -/
def dtKeys (t : DirTree) : List GoStr :=
  t.map Prod.fst

/-- All children of all directories, in tree order. -/
def dtChildren (t : DirTree) : List DEntry :=
  t.foldr (fun kv acc => kv.2 ++ acc) []

/-- Every inserted path of the tree: its directory keys together with the
remote paths of all listed children. -/
def dtPaths (t : DirTree) : List GoStr :=
  dtKeys t ++ t.foldr (fun kv acc => kv.2.map DEntry.remote ++ acc) []

/-- The proper ancestor directory paths of a slash separated path: for
"a/b/c" these are "", "a" and "a/b". -/
def properAncestors (p : GoStr) : List GoStr :=
  (List.range (splitSlash p).length).map (fun i => joinSlash ((splitSlash p).take i))

/-- Does the directory at key k already list a child with remote path r? -/
def dtHasChild (t : DirTree) (k : GoStr) (r : GoStr) : Bool :=
  match dtLookup t k with
  | some es => es.any (fun e => e.remote == r)
  | none => false

/-- Modelled from the spec: synthesize one missing ancestor directory — a
non-root directory is listed in its parent (unless an entry with that path
is already listed there) and given its own key; the root just gets its
key. -/
def dtEnsureDir (t : DirTree) (d : GoStr) : DirTree :=
  if d = [] then dtEnsureKey t []
  else
    let t' := if dtHasChild t (parentDir d) d then t
              else dtAddChild t (parentDir d) (.dir d)
    dtEnsureKey t' d

/-- Modelled from the spec: dirtree CheckParents — "walk every inserted path
and synthesize any missing ancestor directory nodes". -/
def dtCheckParents (t : DirTree) : DirTree :=
  (dtPaths t).foldl (fun acc p => (properAncestors p).foldl dtEnsureDir acc) t

/-- Lexicographic comparison of Go strings (byte order). -/
def goStrLe : GoStr → GoStr → Bool
  | [], _ => true
  | _ :: _, [] => false
  | a :: as, b :: bs => if a < b then true else if b < a then false else goStrLe as bs

/-- Insert an entry into a name-sorted child list. -/
def insertByRemote (e : DEntry) : List DEntry → List DEntry
  | [] => [e]
  | x :: xs => if goStrLe e.remote x.remote then e :: x :: xs else x :: insertByRemote e xs

/-- Sort a child list by remote name (insertion sort). -/
def sortChildren (l : List DEntry) : List DEntry :=
  l.foldr insertByRemote []

/-- Modelled from the spec: dirtree Sort — "a deterministic ordering of
children within each directory (stable sort by name)". -/
def dtSort (t : DirTree) : DirTree :=
  t.map (fun kv => (kv.1, sortChildren kv.2))

/-! ## Path normalization (readZip / readSquashfs, entry loop head) -/

/-- readZip: `strings.Trim(path.Clean(file.Name), "/")` with "." mapped to
the empty path. -/
def zipCleanName (name : GoStr) : GoStr :=
  let r := trimSlash (pathClean name)
  if r = ['.'] then [] else r

/-- readSquashfs: `strings.Trim(filePath, "/")` with "." mapped to the
empty path (WalkDir already yields clean paths, so no path.Clean here). -/
def sqCleanName (fp : GoStr) : GoStr :=
  let r := trimSlash fp
  if r = ['.'] then [] else r

/-- The prefix-join and root-relative trimming shared by readZip and
readSquashfs: `remote = path.Join(prefix, cleaned)`; when root is non-empty,
drop the entry unless `strings.HasPrefix(remote, root)`, map `remote == root`
to the empty path, and otherwise `strings.TrimPrefix(remote, root + "/")`. -/
def relPath (pre root cleaned : GoStr) : Option GoStr :=
  let remote := pathJoin pre cleaned
  if root = [] then some remote
  else if root.isPrefixOf remote = false then none
  else if remote = root then some []
  else some (goTrimPre remote (root ++ ['/']))

/-- Full normalization of one zip entry name. -/
def zipNorm (pre root name : GoStr) : Option GoStr :=
  relPath pre root (zipCleanName name)

/-- Full normalization of one squashfs walk path. -/
def sqNorm (pre root name : GoStr) : Option GoStr :=
  relPath pre root (sqCleanName name)

/-! ## Namespace build (readZip / readSquashfs) -/

/-- The entry loop of readZip/readSquashfs, generic in the normalization of
the raw name: skip entries that normalize away; AddDir for directory
markers; a file normalizing to the empty path is the single-object case —
the partial tree is abandoned for a fresh one holding only a file named
`path.Base(root)` and the loop stops; any other file is added at its path. -/
def archLoop (norm : GoStr → Option GoStr) (root : GoStr) :
    List RawEntry → DirTree → DirTree × Bool
  | [], dt => (dt, false)
  | e :: es, dt =>
    match norm e.name with
    | none => archLoop norm root es dt
    | some remote =>
      if e.isDir then
        archLoop norm root es (dtAddDir dt remote)
      else if remote = [] then
        (dtAdd dtNew (DEntry.file (pathBase root) e.size), true)
      else
        archLoop norm root es (dtAdd dt (DEntry.file remote e.size))

/-- The whole build: run the entry loop from a fresh tree, then
`dt.CheckParents("")` and `dt.Sort()`; returns the tree and the
single-object flag. -/
def archBuild (norm : GoStr → Option GoStr) (root : GoStr)
    (entries : List RawEntry) : DirTree × Bool :=
  (dtSort (dtCheckParents (archLoop norm root entries dtNew).1),
   (archLoop norm root entries dtNew).2)

/-- A zip central-directory record: readZip treats a trailing '/' on the raw
name as the directory marker. -/
def zipEntry (name : GoStr) (size : Int) : RawEntry :=
  ⟨name, goHasSuffix name ['/'], size⟩

/-- The decoded zip records as raw entries. -/
def zipEntries (files : List (GoStr × Int)) : List RawEntry :=
  files.map (fun f => zipEntry f.1 f.2)

/-- readZip's namespace build over the decoded zip records. -/
def readZip (pre root : GoStr) (files : List (GoStr × Int)) : DirTree × Bool :=
  archBuild (zipNorm pre root) root (zipEntries files)

/-- readSquashfs's namespace build over the WalkDir results (each with an
explicit directory flag). -/
def readSquashfs (pre root : GoStr) (walk : List RawEntry) : DirTree × Bool :=
  archBuild (sqNorm pre root) root walk

/-! ## Query surface (Fs.List / Fs.NewObject) -/

/-- Error returned by List. -/
inductive ListErr where
  | dirNotFound
deriving DecidableEq, Repr

/-- Error returned by NewObject. -/
inductive ObjErr where
  | notFound
  | notAFile
deriving DecidableEq, Repr

/-- Fs.List: `entries, ok := f.dt[dir]`; ErrorDirNotFound when the key is
absent. -/
def fsList (dt : DirTree) (dir : GoStr) : Except ListErr (List DEntry) :=
  match dtLookup dt dir with
  | some es => .ok es
  | none => .error .dirNotFound

/-- Modelled from the spec: dirtree Find (not among the given sources) —
"look up the immediate parent directory, scan its children for a matching
file name". -/
def dtFindEntry (dt : DirTree) (p : GoStr) : Option DEntry :=
  (dtLookup dt (parentDir p)).bind (fun es => es.find? (fun e => e.remote == p))

/-- Fs.NewObject: a nil tree or a missing entry is ErrorObjectNotFound; an
entry that is not a file object is ErrorNotAFile. -/
def newObject (dt : Option DirTree) (p : GoStr) : Except ObjErr DEntry :=
  match dt with
  | none => .error .notFound
  | some t =>
    match dtFindEntry t p with
    | none => .error .notFound
    | some (.dir _) => .error .notAFile
    | some (.file r sz) => .ok (.file r sz)

/-! ## Entry reader (Object.Open, zip and squashfs) -/

/-- Modelled from the spec: the repository's lib/readers
NewLimitedReadCloser (not among the given sources) — wrap a stream so that
at most `limit` bytes are yielded; a negative limit applies no wrapping at
all (the stream is returned unlimited). -/
def limitedRead (bytes : List Nat) (limit : Int) : List Nat :=
  if limit < 0 then bytes else bytes.take limit.toNat

/-- Object.Open with the decoded offset/limit window (per the spec's open
contract, `limit` counts the bytes to yield after the offset and is -1 when
unset): `io.CopyN(io.Discard, rc, offset)` first — an error (none) when the
stream holds fewer than offset bytes — then, when `limit >= 0`, the stream
is wrapped with `readers.NewLimitedReadCloser(rc, limit-offset)`. -/
def objOpen (content : List Nat) (offset limit : Int) : Option (List Nat) :=
  if 0 < offset ∧ (content.length : Int) < offset then none
  else
    let rest := if 0 < offset then content.drop offset.toNat else content
    if 0 ≤ limit then some (limitedRead rest (limit - offset)) else some rest

/-! ## Write session (Fs.Put, zip) -/

/-- A zip storage method. -/
inductive Method where
  | store
  | deflate
deriving DecidableEq, Repr

/-- One entry as serialized by the zip writer: the compressor chosen when
`zw.CreateHeader(fh)` ran, the final value of `fh.Method` (which the central
directory written at close will carry), how many bytes were copied, and
whether the declared size was reached. -/
structure ZEntry where
  name : GoStr
  compressMethod : Method
  headerMethod : Method
  bytesWritten : Nat
  complete : Bool
deriving DecidableEq, Repr

/-- The write session (f.wh / f.zw): how many times the destination was
opened with O_WRONLY|O_CREATE|O_TRUNC, and the entries serialized so far. -/
structure ZipSession where
  truncOpens : Nat
  entries : List ZEntry
deriving DecidableEq, Repr

/-- Errors of Fs.Put. -/
inductive PutErr where
  | unknownSize
  | shortCopy
deriving DecidableEq, Repr

/-- Fs.Put: reject a negative (unknown) size before touching the session; on
the first accepted entry open the destination with O_TRUNC and create the
zip writer; `zip.FileInfoHeader` leaves fh.Method at its zero value (Store)
and `zw.CreateHeader(fh)` picks the compressor from that value; only
afterwards does the source assign fh.Method from the size heuristic
(`size < 10`), so the assignment reaches the central directory only; then
`io.CopyN(w, in, size)` — an error when the stream yields fewer than size
bytes, with the session left as it is. -/
def zipPut (st : Option ZipSession) (name : GoStr) (size : Int)
    (stream : List Nat) : Except PutErr GoStr × Option ZipSession :=
  if size < 0 then (.error .unknownSize, st)
  else
    let sess := match st with
      | none => { truncOpens := 1, entries := [] : ZipSession }
      | some s => s
    let comp := Method.store
    let hdr := if size < 10 then Method.store else Method.deflate
    let copied := min stream.length size.toNat
    let entry : ZEntry :=
      { name := name, compressMethod := comp, headerMethod := hdr,
        bytesWritten := copied, complete := decide (size.toNat ≤ stream.length) }
    let sess' := { sess with entries := sess.entries ++ [entry] }
    if (stream.length : Int) < size then (.error .shortCopy, some sess')
    else (.ok name, some sess')

/-! ## Hashes (zip Object.Hash) -/

/-- The hash type asked of Object.Hash: CRC32 or anything else. -/
inductive HashType where
  | crc32
  | other
deriving DecidableEq, Repr

/-- Error of Object.Hash. -/
inductive HashErr where
  | unsupported
deriving DecidableEq, Repr

/-- One lowercase hex digit. -/
def hexDigit (n : Nat) : Char :=
  if n < 10 then Char.ofNat ('0'.toNat + n)
  else Char.ofNat ('a'.toNat + (n - 10))

/-- k lowercase hex digits of n, most significant first (zero padded). -/
def hexN : Nat → Nat → GoStr
  | 0, _ => []
  | k + 1, n => hexN k (n / 16) ++ [hexDigit (n % 16)]

/-- fmt.Sprintf("%08x", crc) for a 32-bit checksum. -/
def hex8 (crc : Nat) : GoStr :=
  hexN 8 (crc % 2 ^ 32)

/-- zip Object.Hash: for CRC32, a write-mode adapter (nil tree) answers the
empty string with no error, a read adapter formats the stored checksum; any
other hash type is ErrUnsupported. -/
def objHash (dt : Option DirTree) (crc : Nat) (ht : HashType) :
    Except HashErr GoStr :=
  match ht with
  | .crc32 => if dt.isNone then .ok [] else .ok (hex8 crc)
  | .other => .error .unsupported

/-! ## Adapter construction (zip New / squashfs New) -/

/-- New errors (both backends). -/
inductive NewErr where
  | isADirectory
  | nilPointerDereference
deriving DecidableEq, Repr

/-- The constructed adapter: the directory tree when an archive was read
(none leaves the adapter ready for writing), and whether New reported
fs.ErrorIsFile (the single-object case). -/
structure Adapter where
  dt : Option DirTree
  single : Bool
deriving DecidableEq, Repr

/-- The stat result for the remote in zip New: when the remote exists, its
directory flag and the decoded archive records. -/
structure ZipNode where
  isDir : Bool
  files : List (GoStr × Int)
deriving DecidableEq, Repr

/-- The stat result for the remote in squashfs New: when the remote exists,
its directory flag and the WalkDir results of the archive. -/
structure SqNode where
  isDir : Bool
  walk : List RawEntry
deriving DecidableEq, Repr

/-- zip New: a stat error of kind not-exist leaves node nil; a directory is
rejected; readZip runs only when node is non-nil, so a missing remote yields
an adapter with no tree and no error. -/
def zipNew (node : Option ZipNode) (pre root : GoStr) : Except NewErr Adapter :=
  match node with
  | none => .ok { dt := none, single := false }
  | some n =>
    if n.isDir then .error .isADirectory
    else
      let (dt, single) := readZip pre root n.files
      .ok { dt := some dt, single := single }

/-- squashfs New: after the same stat and directory check, the source calls
`node.Open(os.O_RDONLY)` unconditionally (squashfs.go line 66); with a
missing remote node is nil and the call dereferences a nil interface. -/
def squashNew (node : Option SqNode) (pre root : GoStr) : Except NewErr Adapter :=
  match node with
  | none => .error .nilPointerDereference
  | some n =>
    if n.isDir then .error .isADirectory
    else
      let (dt, single) := readSquashfs pre root n.walk
      .ok { dt := some dt, single := single }

/-- Did the call succeed? -/
def exceptIsOk : Except ε α → Bool
  | .ok _ => true
  | .error _ => false

/-! ## Theorems -/

/-- C1: the root filter of readZip/readSquashfs tests
`strings.HasPrefix(remote, root)` without a separator, so with root "a" the
entry "ab" — which neither equals the root nor starts with "a/" — is NOT
excluded: it normalizes to "ab" (untrimmed) in both backends and readZip
places it in the tree as a file at "ab", where the claim says it must appear
nowhere. -/
theorem claimC1_root_filter_eval :
    zipNorm [] ['a'] ['a', 'b'] = some ['a', 'b'] ∧
    sqNorm [] ['a'] ['a', 'b'] = some ['a', 'b'] ∧
    readZip [] ['a'] [(['a', 'b'], 3)] =
      ([([], [DEntry.file ['a', 'b'] 3])], false) := by
  decide

/-- C2: Object.Open passes `limit - offset` instead of `limit` to the byte
limiter; on a 20-byte entry with offset 5 and limit 3 the limiter receives
-2, which applies no limit at all, so all 15 remaining bytes (5..19) are
yielded — not the 3 bytes 5..8 the claim requires. -/
theorem claimC2_limit_window_eval :
    objOpen (List.range 20) 5 3 = some (List.drop 5 (List.range 20)) ∧
    (List.drop 5 (List.range 20)).length = 15 ∧
    List.take 3 (List.drop 5 (List.range 20)) ≠ List.drop 5 (List.range 20) := by
  decide

/-- C6: evaluating Fs.Put on an entry of declared size 10 (at the
compression threshold, so the claim requires Deflate in effect): the
compressor chosen when zw.CreateHeader ran is Store — fh.Method is assigned
only after CreateHeader — so the entry is serialized uncompressed while the
header carries Deflate. -/
theorem claimC6_method_eval :
    (zipPut none ['a'] 10 (List.range 10)).2 =
      some ⟨1, [⟨['a'], Method.store, Method.deflate, 10, true⟩]⟩ := by
  decide

/-- C10: on a write-mode zip adapter (no directory tree was read), Hash
with the CRC32 type answers the empty string with no error, whatever
checksum value the object would carry. -/
theorem claimC10_hash_write_mode (crc : Nat) :
    objHash none crc HashType.crc32 = .ok [] := rfl

/-- C8 counterexample: with a remote that does not exist on the wrapped
filesystem, squashfs New does not succeed — the unconditional
`node.Open(os.O_RDONLY)` dereferences the nil node — refuting the claim
that both backends return a ready adapter with no error. -/
theorem claimC8_counterexample :
    exceptIsOk (squashNew none [] []) = false := rfl

/-- C8 (amended): for every missing remote, zip New succeeds without
reading an archive, returning an adapter with no directory tree and no
error; squashfs New instead dereferences the nil node and fails. -/
theorem claimC8_new_amended (pre root : GoStr) :
    zipNew none pre root = .ok { dt := none, single := false } ∧
    squashNew none pre root = .error .nilPointerDereference :=
  ⟨rfl, rfl⟩

/-- C5 counterexample: a put declared as 100 bytes whose stream yields only
50 fails with the short-copy error, yet the very next put on the same
session is accepted — the session is not marked unusable, refuting the
claim's final conjunct. -/
theorem claimC5_counterexample :
    (zipPut none ['a'] 100 (List.range 50)).1 = .error .shortCopy ∧
    exceptIsOk
      (zipPut (zipPut none ['a'] 100 (List.range 50)).2 ['b'] 5
        (List.range 5)).1 = true :=
  ⟨rfl, rfl⟩

/-- C5 (amended): put fails with the unknown-size error whenever the
declared size is negative (leaving the session untouched), and fails with
the short-copy error whenever the stream yields fewer than the declared
size bytes; after such a short-read failure the session remains open and
further entries with adequate streams are still accepted — it is not marked
unusable. -/
theorem claimC5_put_failures (st : Option ZipSession) (name : GoStr)
    (size : Int) (stream : List Nat) :
    (size < 0 → zipPut st name size stream = (.error .unknownSize, st)) ∧
    (0 ≤ size → (stream.length : Int) < size →
      (zipPut st name size stream).1 = .error .shortCopy ∧
      ∃ s, (zipPut st name size stream).2 = some s ∧
        ∀ (n2 : GoStr) (sz2 : Int) (st2 : List Nat), 0 ≤ sz2 →
          sz2 ≤ (st2.length : Int) →
          (zipPut (some s) n2 sz2 st2).1 = .ok n2) := by
  constructor
  · intro h
    simp [zipPut, h]
  · intro h1 h2
    have hns : ¬ size < 0 := not_lt.2 h1
    have hnext : ∀ (n2 : GoStr) (sz2 : Int) (st2 : List Nat) (s : ZipSession),
        0 ≤ sz2 → sz2 ≤ (st2.length : Int) →
        (zipPut (some s) n2 sz2 st2).1 = .ok n2 := by
      intro n2 sz2 st2 s hsz2 hlen
      have hns2 : ¬ sz2 < 0 := not_lt.2 hsz2
      have hlen' : ¬ (st2.length : Int) < sz2 := not_lt.2 hlen
      simp [zipPut, hns2, hlen']
    have hsome : ∃ s, (zipPut st name size stream).2 = some s := by
      simp only [zipPut, if_neg hns]
      split
      · exact ⟨_, rfl⟩
      · exact ⟨_, rfl⟩
    obtain ⟨s, hs⟩ := hsome
    exact ⟨by simp [zipPut, hns, h2], s, hs,
      fun n2 sz2 st2 h2' h3' => hnext n2 sz2 st2 s h2' h3'⟩

/-- C5 witness: the amended statement applied to a session receiving a
100-byte entry whose stream holds 50 bytes, followed by a 5-byte entry with
a full stream. -/
theorem claimC5_put_failures_witness :
    (zipPut none ['a'] 100 (List.range 50)).1 = .error .shortCopy ∧
    ∃ s, (zipPut none ['a'] 100 (List.range 50)).2 = some s ∧
      ∀ (n2 : GoStr) (sz2 : Int) (st2 : List Nat), 0 ≤ sz2 →
        sz2 ≤ (st2.length : Int) →
        (zipPut (some s) n2 sz2 st2).1 = .ok n2 :=
  (claimC5_put_failures none ['a'] 100 (List.range 50)).2 (by decide) (by decide)

/-- C9: the first put of a session (no open writer) opens the destination
with create-and-truncate exactly once; every later put in the same session
leaves the open count as it is — it never reopens or truncates — and only
appends entries to the already-open encoder. -/
theorem claimC9_lazy_truncate_once (name : GoStr) (size : Int)
    (stream : List Nat) (s : ZipSession) :
    (0 ≤ size → ∃ s1, (zipPut none name size stream).2 = some s1 ∧
      s1.truncOpens = 1) ∧
    (∃ s2, (zipPut (some s) name size stream).2 = some s2 ∧
      s2.truncOpens = s.truncOpens ∧
      ∃ es, s2.entries = s.entries ++ es) := by
  constructor
  · intro h
    have hns : ¬ size < 0 := not_lt.2 h
    simp only [zipPut, if_neg hns]
    split
    · exact ⟨_, rfl, rfl⟩
    · exact ⟨_, rfl, rfl⟩
  · by_cases hns : size < 0
    · refine ⟨s, ?_, rfl, [], by simp⟩
      simp [zipPut, hns]
    · simp only [zipPut, if_neg hns]
      split
      · exact ⟨_, rfl, rfl, _, rfl⟩
      · exact ⟨_, rfl, rfl, _, rfl⟩

/-- C9 witness: the statement applied to a first 3-byte put on a fresh
session and a second put on a session that already performed one truncating
open. -/
theorem claimC9_lazy_truncate_once_witness :
    (∃ s1, (zipPut none ['a'] 3 [0, 1, 2]).2 = some s1 ∧
      s1.truncOpens = 1) ∧
    (∃ s2, (zipPut (some ⟨1, []⟩) ['a'] 3 [0, 1, 2]).2 = some s2 ∧
      s2.truncOpens = (⟨1, []⟩ : ZipSession).truncOpens ∧
      ∃ es, s2.entries = (⟨1, []⟩ : ZipSession).entries ++ es) :=
  ⟨(claimC9_lazy_truncate_once ['a'] 3 [0, 1, 2] ⟨1, []⟩).1 (by decide),
   (claimC9_lazy_truncate_once ['a'] 3 [0, 1, 2] ⟨1, []⟩).2⟩

/-- A successful tree lookup returns a pair actually present in the tree. -/
theorem dtLookup_mem {t : DirTree} {k : GoStr} {es : List DEntry}
    (h : dtLookup t k = some es) : (k, es) ∈ t := by
  induction t with
  | nil => simp [dtLookup] at h
  | cons kv t ih =>
    obtain ⟨k', es'⟩ := kv
    by_cases hk : k' = k
    · subst hk
      simp [dtLookup] at h
      simp [h]
    · simp [dtLookup, hk] at h
      exact List.mem_cons_of_mem _ (ih h)

/-- With unique keys, the tree lookup finds every pair present in the
tree. -/
theorem dtLookup_of_mem_nodup {t : DirTree} {k : GoStr} {es : List DEntry}
    (h : (k, es) ∈ t) (hnd : (dtKeys t).Nodup) : dtLookup t k = some es := by
  induction t with
  | nil => simp at h
  | cons kv t ih =>
    obtain ⟨k', es'⟩ := kv
    have hnd' : k' ∉ dtKeys t ∧ (dtKeys t).Nodup := by
      have : (k' :: dtKeys t).Nodup := hnd
      exact List.nodup_cons.1 this
    rcases List.mem_cons.1 h with heq | h'
    · have h1 : k = k' := congrArg Prod.fst heq
      have h2 : es = es' := congrArg Prod.snd heq
      simp only [dtLookup, if_pos h1.symm]
      rw [h2]
    · have hkey : k ∈ dtKeys t := List.mem_map_of_mem Prod.fst h'
      by_cases hk : k' = k
      · exact absurd (hk ▸ hkey) hnd'.1
      · simp only [dtLookup, if_neg hk]
        exact ih h' hnd'.2

/-- The tree lookup fails exactly on the paths that are not keys. -/
theorem dtLookup_eq_none_iff {t : DirTree} {k : GoStr} :
    dtLookup t k = none ↔ k ∉ dtKeys t := by
  induction t with
  | nil => simp [dtLookup, dtKeys]
  | cons kv t ih =>
    obtain ⟨k', es'⟩ := kv
    by_cases hk : k' = k
    · subst hk
      simp [dtLookup, dtKeys]
    · simp [dtLookup, dtKeys, hk, ih, Ne.symm hk]

/-- C7: Fs.List is an exact lookup — a successful listing returns the
children list associated with exactly the requested key in the tree, a key
that is present returns exactly its children (also stated for any pair of a
tree with unique keys), and any path that is not a key (however close to
one) answers ErrorDirNotFound; Fs.NewObject answers ErrorObjectNotFound on
a nil tree and whenever the parent scan finds nothing, ErrorNotAFile when
the found entry is a directory, and a file found at the path is returned —
and any returned file really is a child of the parent directory under its
own path. -/
theorem claimC7_query_surface (dt : DirTree) (dir p : GoStr) :
    (∀ es, fsList dt dir = .ok es → (dir, es) ∈ dt) ∧
    (dir ∉ dtKeys dt → fsList dt dir = .error .dirNotFound) ∧
    (newObject none p = .error .notFound) ∧
    (dtFindEntry dt p = none → newObject (some dt) p = .error .notFound) ∧
    (∀ r, dtFindEntry dt p = some (.dir r) →
      newObject (some dt) p = .error .notAFile) ∧
    (∀ e, newObject (some dt) p = .ok e → e.isFile = true ∧ e.remote = p ∧
      ∃ es, (parentDir p, es) ∈ dt ∧ e ∈ es) ∧
    (∀ es, dtLookup dt dir = some es → fsList dt dir = .ok es) ∧
    (∀ es, (dir, es) ∈ dt → (dtKeys dt).Nodup → fsList dt dir = .ok es) ∧
    (∀ r sz, dtFindEntry dt p = some (.file r sz) →
      newObject (some dt) p = .ok (.file r sz)) := by
  refine ⟨?_, ?_, rfl, ?_, ?_, ?_, ?_, ?_, ?_⟩
  · intro es h
    have : dtLookup dt dir = some es := by
      cases hl : dtLookup dt dir with
      | none => simp [fsList, hl] at h
      | some es' =>
        simp only [fsList, hl, Except.ok.injEq] at h
        rw [h]
    exact dtLookup_mem this
  · intro h
    have : dtLookup dt dir = none := dtLookup_eq_none_iff.2 h
    simp [fsList, this]
  · intro h
    simp [newObject, h]
  · intro r h
    simp [newObject, h]
  · intro e h
    simp only [newObject] at h
    cases hf : dtFindEntry dt p with
    | none => simp [hf] at h
    | some e' =>
      cases e' with
      | dir r => simp [hf] at h
      | file r sz =>
        simp [hf] at h
        subst h
        have hf' := hf
        simp only [dtFindEntry, Option.bind_eq_some] at hf'
        obtain ⟨es, hes, hfind⟩ := hf'
        have hmem : DEntry.file r sz ∈ es := List.mem_of_find?_eq_some hfind
        have hrem := List.find?_some hfind
        refine ⟨rfl, ?_, es, dtLookup_mem hes, hmem⟩
        exact eq_of_beq hrem
  · intro es h
    simp [fsList, h]
  · intro es hmem hnd
    simp [fsList, dtLookup_of_mem_nodup hmem hnd]
  · intro r sz h
    simp [newObject, h]

/-- C7 witness: the statement applied to the concrete tree holding the
file "a/b" under directory "a": a missing directory answers
DirectoryNotFound, the present directory "a" returns exactly its children,
the file "a/b" is resolved to its entry, and the soundness conjunct holds
at that resolution. -/
theorem claimC7_query_surface_witness :
    (['z'] ∉ dtKeys [([], [DEntry.dir ['a']]),
        (['a'], [DEntry.file ['a', '/', 'b'] 7])] →
      fsList [([], [DEntry.dir ['a']]),
        (['a'], [DEntry.file ['a', '/', 'b'] 7])] ['z'] =
        .error .dirNotFound) ∧
    fsList [([], [DEntry.dir ['a']]),
      (['a'], [DEntry.file ['a', '/', 'b'] 7])] ['a'] =
      .ok [DEntry.file ['a', '/', 'b'] 7] ∧
    newObject (some [([], [DEntry.dir ['a']]),
      (['a'], [DEntry.file ['a', '/', 'b'] 7])]) ['a', '/', 'b'] =
      .ok (.file ['a', '/', 'b'] 7) ∧
    (∀ e, newObject (some [([], [DEntry.dir ['a']]),
        (['a'], [DEntry.file ['a', '/', 'b'] 7])]) ['a', '/', 'b'] = .ok e →
      e.isFile = true ∧ e.remote = ['a', '/', 'b'] ∧
      ∃ es, (parentDir ['a', '/', 'b'], es) ∈
          [([], [DEntry.dir ['a']]), (['a'], [DEntry.file ['a', '/', 'b'] 7])] ∧
        e ∈ es) :=
  ⟨(claimC7_query_surface [([], [DEntry.dir ['a']]),
      (['a'], [DEntry.file ['a', '/', 'b'] 7])] ['z'] ['a', '/', 'b']).2.1,
   (claimC7_query_surface [([], [DEntry.dir ['a']]),
      (['a'], [DEntry.file ['a', '/', 'b'] 7])] ['a']
      ['a', '/', 'b']).2.2.2.2.2.2.2.1 [DEntry.file ['a', '/', 'b'] 7]
      (by decide) (by decide),
   (claimC7_query_surface [([], [DEntry.dir ['a']]),
      (['a'], [DEntry.file ['a', '/', 'b'] 7])] ['z']
      ['a', '/', 'b']).2.2.2.2.2.2.2.2 ['a', '/', 'b'] 7 (by decide),
   (claimC7_query_surface [([], [DEntry.dir ['a']]),
      (['a'], [DEntry.file ['a', '/', 'b'] 7])] ['z'] ['a', '/', 'b']).2.2.2.2.2.1⟩

/-- A path is in dtPaths exactly when it is a key or the remote of some
listed child. -/
theorem mem_dtPaths_iff {t : DirTree} {q : GoStr} :
    q ∈ dtPaths t ↔
      q ∈ dtKeys t ∨ ∃ kv ∈ t, ∃ e ∈ kv.2, DEntry.remote e = q := by
  unfold dtPaths
  rw [List.mem_append]
  refine or_congr Iff.rfl ?_
  induction t with
  | nil => simp
  | cons kv t ih =>
    simp only [List.foldr_cons, List.mem_append, List.mem_map, List.mem_cons, ih]
    constructor
    · rintro (⟨e, he, hq⟩ | ⟨kv', h1, e, h2, h3⟩)
      · exact ⟨kv, Or.inl rfl, e, he, hq⟩
      · exact ⟨kv', Or.inr h1, e, h2, h3⟩
    · rintro ⟨kv', (rfl | h1), e, h2, h3⟩
      · exact Or.inl ⟨e, h2, h3⟩
      · exact Or.inr ⟨kv', h1, e, h2, h3⟩

/-- Unfolding dtAddChild at a matching head key. -/
theorem dtAddChild_cons_pos {t : DirTree} {k' k : GoStr} {es' : List DEntry}
    {e : DEntry} (hk : k' = k) :
    dtAddChild ((k', es') :: t) k e = (k', es' ++ [e]) :: t := by
  simp [dtAddChild, hk]

/-- Unfolding dtAddChild at a non-matching head key. -/
theorem dtAddChild_cons_neg {t : DirTree} {k' k : GoStr} {es' : List DEntry}
    {e : DEntry} (hk : ¬ k' = k) :
    dtAddChild ((k', es') :: t) k e = (k', es') :: dtAddChild t k e := by
  simp [dtAddChild, hk]

/-- Adding a child never removes a key. -/
theorem mem_dtKeys_addChild {t : DirTree} {k a : GoStr} {e : DEntry}
    (h : a ∈ dtKeys t) : a ∈ dtKeys (dtAddChild t k e) := by
  induction t with
  | nil => simp [dtKeys] at h
  | cons kv t ih =>
    obtain ⟨k', es'⟩ := kv
    by_cases hk : k' = k
    · rw [dtAddChild_cons_pos hk]
      exact h
    · rw [dtAddChild_cons_neg hk]
      simp only [dtKeys, List.map_cons, List.mem_cons] at h ⊢
      rcases h with h | h
      · exact Or.inl h
      · exact Or.inr (ih h)

/-- Every child listed before an addChild is still listed afterwards. -/
theorem addChild_child_mem {t : DirTree} {k : GoStr} {e e0 : DEntry}
    {kv : GoStr × List DEntry} (ht : kv ∈ t) (he : e0 ∈ kv.2) :
    ∃ kv' ∈ dtAddChild t k e, e0 ∈ kv'.2 := by
  induction t with
  | nil => simp at ht
  | cons hd t ih =>
    obtain ⟨k', es'⟩ := hd
    rcases List.mem_cons.1 ht with heq | ht'
    · have he' : e0 ∈ es' := by rw [heq] at he; exact he
      by_cases hk : k' = k
      · rw [dtAddChild_cons_pos hk]
        exact ⟨(k', es' ++ [e]), List.mem_cons_self _ _,
          List.mem_append_left _ he'⟩
      · rw [dtAddChild_cons_neg hk]
        exact ⟨(k', es'), List.mem_cons_self _ _, he'⟩
    · by_cases hk : k' = k
      · rw [dtAddChild_cons_pos hk]
        exact ⟨kv, List.mem_cons_of_mem _ ht', he⟩
      · rw [dtAddChild_cons_neg hk]
        obtain ⟨kv', h1, h2⟩ := ih ht'
        exact ⟨kv', List.mem_cons_of_mem _ h1, h2⟩

/-- The added child itself is listed after an addChild. -/
theorem addChild_self_mem {t : DirTree} {k : GoStr} {e : DEntry} :
    ∃ kv' ∈ dtAddChild t k e, e ∈ kv'.2 := by
  induction t with
  | nil => exact ⟨(k, [e]), by simp [dtAddChild], by simp⟩
  | cons hd t ih =>
    obtain ⟨k', es'⟩ := hd
    by_cases hk : k' = k
    · rw [dtAddChild_cons_pos hk]
      exact ⟨(k', es' ++ [e]), List.mem_cons_self _ _,
        List.mem_append_right _ (by simp)⟩
    · rw [dtAddChild_cons_neg hk]
      obtain ⟨kv', h1, h2⟩ := ih
      exact ⟨kv', List.mem_cons_of_mem _ h1, h2⟩

/-- addChild preserves every inserted path. -/
theorem mem_dtPaths_addChild {t : DirTree} {k q : GoStr} {e : DEntry}
    (h : q ∈ dtPaths t) : q ∈ dtPaths (dtAddChild t k e) := by
  rw [mem_dtPaths_iff] at h ⊢
  rcases h with h | ⟨kv, ht, e0, he0, hq⟩
  · exact Or.inl (mem_dtKeys_addChild h)
  · obtain ⟨kv', h1, h2⟩ := addChild_child_mem ht he0
    exact Or.inr ⟨kv', h1, e0, h2, hq⟩

/-- The remote of an added child is an inserted path. -/
theorem remote_mem_dtPaths_addChild {t : DirTree} {k : GoStr} {e : DEntry} :
    DEntry.remote e ∈ dtPaths (dtAddChild t k e) := by
  rw [mem_dtPaths_iff]
  obtain ⟨kv', h1, h2⟩ := addChild_self_mem (t := t) (k := k) (e := e)
  exact Or.inr ⟨kv', h1, e, h2, rfl⟩

/-- Unfolding dtEnsureKey at a matching head key. -/
theorem dtEnsureKey_cons_pos {t : DirTree} {k' k : GoStr} {es' : List DEntry}
    (hk : k' = k) :
    dtEnsureKey ((k', es') :: t) k = (k', es') :: t := by
  simp [dtEnsureKey, hk]

/-- Unfolding dtEnsureKey at a non-matching head key. -/
theorem dtEnsureKey_cons_neg {t : DirTree} {k' k : GoStr} {es' : List DEntry}
    (hk : ¬ k' = k) :
    dtEnsureKey ((k', es') :: t) k = (k', es') :: dtEnsureKey t k := by
  simp [dtEnsureKey, hk]

/-- The ensured key is a key afterwards. -/
theorem mem_dtKeys_ensureKey_self {t : DirTree} {k : GoStr} :
    k ∈ dtKeys (dtEnsureKey t k) := by
  induction t with
  | nil => simp [dtEnsureKey, dtKeys]
  | cons kv t ih =>
    obtain ⟨k', es'⟩ := kv
    by_cases hk : k' = k
    · rw [dtEnsureKey_cons_pos hk]
      simp only [dtKeys, List.map_cons, List.mem_cons]
      exact Or.inl hk.symm
    · rw [dtEnsureKey_cons_neg hk]
      simp only [dtKeys, List.map_cons, List.mem_cons]
      exact Or.inr ih

/-- Ensuring a key never removes a key. -/
theorem mem_dtKeys_ensureKey {t : DirTree} {k a : GoStr}
    (h : a ∈ dtKeys t) : a ∈ dtKeys (dtEnsureKey t k) := by
  induction t with
  | nil => simp [dtKeys] at h
  | cons kv t ih =>
    obtain ⟨k', es'⟩ := kv
    by_cases hk : k' = k
    · rw [dtEnsureKey_cons_pos hk]
      exact h
    · rw [dtEnsureKey_cons_neg hk]
      simp only [dtKeys, List.map_cons, List.mem_cons] at h ⊢
      rcases h with h | h
      · exact Or.inl h
      · exact Or.inr (ih h)

/-- Ensuring an existing key is a no-op. -/
theorem dtEnsureKey_eq_of_mem {t : DirTree} {k : GoStr}
    (h : k ∈ dtKeys t) : dtEnsureKey t k = t := by
  induction t with
  | nil => simp [dtKeys] at h
  | cons kv t ih =>
    obtain ⟨k', es'⟩ := kv
    by_cases hk : k' = k
    · rw [dtEnsureKey_cons_pos hk]
    · simp only [dtKeys, List.map_cons, List.mem_cons] at h
      rcases h with h | h
      · exact absurd h.symm hk
      · rw [dtEnsureKey_cons_neg hk, ih h]

/-- The ensured directory is a key afterwards. -/
theorem mem_dtKeys_ensureDir_self {t : DirTree} {d : GoStr} :
    d ∈ dtKeys (dtEnsureDir t d) := by
  by_cases hd : d = []
  · subst hd
    simp only [dtEnsureDir, if_pos rfl]
    exact mem_dtKeys_ensureKey_self
  · simp only [dtEnsureDir, if_neg hd]
    exact mem_dtKeys_ensureKey_self

/-- Synthesizing a directory never removes a key. -/
theorem mem_dtKeys_ensureDir {t : DirTree} {d a : GoStr}
    (h : a ∈ dtKeys t) : a ∈ dtKeys (dtEnsureDir t d) := by
  by_cases hd : d = []
  · subst hd
    simp only [dtEnsureDir, if_pos rfl]
    exact mem_dtKeys_ensureKey h
  · simp only [dtEnsureDir, if_neg hd]
    by_cases hc : dtHasChild t (parentDir d) d
    · simp only [if_pos hc]
      exact mem_dtKeys_ensureKey h
    · simp only [if_neg hc]
      exact mem_dtKeys_ensureKey (mem_dtKeys_addChild h)

/-- Folding directory synthesis over a list never removes a key. -/
theorem foldl_ensureDir_keys_mono {a : GoStr} :
    ∀ (l : List GoStr) (t : DirTree), a ∈ dtKeys t →
      a ∈ dtKeys (l.foldl dtEnsureDir t)
  | [], _, h => h
  | d :: l, t, h =>
    foldl_ensureDir_keys_mono l (dtEnsureDir t d) (mem_dtKeys_ensureDir h)

/-- Folding directory synthesis over a list makes every listed path a key. -/
theorem foldl_ensureDir_keys_mem {a : GoStr} :
    ∀ (l : List GoStr) (t : DirTree), a ∈ l →
      a ∈ dtKeys (l.foldl dtEnsureDir t)
  | d :: l, t, h => by
    rcases List.mem_cons.1 h with rfl | h'
    · exact foldl_ensureDir_keys_mono l _ mem_dtKeys_ensureDir_self
    · exact foldl_ensureDir_keys_mem l _ h'

/-- The CheckParents pass never removes a key. -/
theorem foldl_anc_keys_mono {a : GoStr} :
    ∀ (l : List GoStr) (t : DirTree), a ∈ dtKeys t →
      a ∈ dtKeys (l.foldl (fun acc p => (properAncestors p).foldl dtEnsureDir acc) t)
  | [], _, h => h
  | _ :: l, _, h =>
    foldl_anc_keys_mono l _ (foldl_ensureDir_keys_mono _ _ h)

/-- After CheckParents, every proper ancestor of every inserted path is a
key of the tree. -/
theorem mem_dtKeys_checkParents {t : DirTree} {p a : GoStr}
    (hp : p ∈ dtPaths t) (ha : a ∈ properAncestors p) :
    a ∈ dtKeys (dtCheckParents t) := by
  unfold dtCheckParents
  have aux : ∀ (l : List GoStr) (t' : DirTree), p ∈ l →
      a ∈ dtKeys (l.foldl (fun acc q => (properAncestors q).foldl dtEnsureDir acc) t') := by
    intro l
    induction l with
    | nil => intro t' h; simp at h
    | cons x l ih =>
      intro t' h
      rcases List.mem_cons.1 h with rfl | h'
      · exact foldl_anc_keys_mono l _ (foldl_ensureDir_keys_mem _ _ ha)
      · exact ih _ h'
  exact aux (dtPaths t) t hp

/-- Sorting children keeps the key set. -/
theorem dtKeys_dtSort {t : DirTree} : dtKeys (dtSort t) = dtKeys t := by
  unfold dtSort dtKeys
  rw [List.map_map]
  rfl

/-- Keys are inserted paths. -/
theorem mem_dtPaths_of_key {t : DirTree} {a : GoStr}
    (h : a ∈ dtKeys t) : a ∈ dtPaths t :=
  mem_dtPaths_iff.2 (Or.inl h)

/-- Ensuring a key keeps every existing pair of the tree. -/
theorem ensureKey_pair_mem {t : DirTree} {k : GoStr}
    {kv : GoStr × List DEntry} (h : kv ∈ t) : kv ∈ dtEnsureKey t k := by
  induction t with
  | nil => simp at h
  | cons hd t ih =>
    obtain ⟨k', es'⟩ := hd
    by_cases hk : k' = k
    · simpa [dtEnsureKey, hk] using h
    · rcases List.mem_cons.1 h with rfl | h'
      · simp [dtEnsureKey, hk]
      · simp [dtEnsureKey, hk, ih h']

/-- Ensuring a key preserves every inserted path. -/
theorem mem_dtPaths_ensureKey {t : DirTree} {k q : GoStr}
    (h : q ∈ dtPaths t) : q ∈ dtPaths (dtEnsureKey t k) := by
  rw [mem_dtPaths_iff] at h ⊢
  rcases h with h | ⟨kv, h1, e0, h2, h3⟩
  · exact Or.inl (mem_dtKeys_ensureKey h)
  · exact Or.inr ⟨kv, ensureKey_pair_mem h1, e0, h2, h3⟩

/-- AddDir preserves every inserted path. -/
theorem mem_dtPaths_dtAddDir {t : DirTree} {r q : GoStr}
    (h : q ∈ dtPaths t) : q ∈ dtPaths (dtAddDir t r) := by
  unfold dtAddDir
  by_cases hr : r = []
  · rw [if_pos hr]
    exact mem_dtPaths_ensureKey h
  · rw [if_neg hr]
    exact mem_dtPaths_ensureKey (mem_dtPaths_addChild h)

/-- The path of an added directory is an inserted path. -/
theorem mem_dtPaths_dtAddDir_self {t : DirTree} {r : GoStr} :
    r ∈ dtPaths (dtAddDir t r) := by
  unfold dtAddDir
  by_cases hr : r = []
  · rw [if_pos hr]
    exact mem_dtPaths_of_key (hr ▸ mem_dtKeys_ensureKey_self)
  · rw [if_neg hr]
    exact mem_dtPaths_of_key mem_dtKeys_ensureKey_self

/-- Add preserves every inserted path. -/
theorem mem_dtPaths_dtAdd {t : DirTree} {q : GoStr} {e : DEntry}
    (h : q ∈ dtPaths t) : q ∈ dtPaths (dtAdd t e) :=
  mem_dtPaths_addChild h

/-- The remote of an added entry is an inserted path. -/
theorem mem_dtPaths_dtAdd_self {t : DirTree} {e : DEntry} :
    DEntry.remote e ∈ dtPaths (dtAdd t e) :=
  remote_mem_dtPaths_addChild

/-- The entry loop, when it does not hit the single-object case, keeps every
already inserted path and inserts the normalized path of every entry it
accepts. -/
theorem archLoop_paths (norm : GoStr → Option GoStr) (root : GoStr) :
    ∀ (es : List RawEntry) (dt : DirTree),
      (archLoop norm root es dt).2 = false →
      (∀ q, q ∈ dtPaths dt → q ∈ dtPaths (archLoop norm root es dt).1) ∧
      (∀ e ∈ es, ∀ p, norm e.name = some p →
        p ∈ dtPaths (archLoop norm root es dt).1) := by
  intro es
  induction es with
  | nil =>
    intro dt _
    exact ⟨fun q hq => hq, fun e he => by simp at he⟩
  | cons e es ih =>
    intro dt hflag
    cases hn : norm e.name with
    | none =>
      simp only [archLoop, hn] at hflag ⊢
      obtain ⟨mono, ins⟩ := ih dt hflag
      refine ⟨mono, ?_⟩
      intro e' he' p hp
      rcases List.mem_cons.1 he' with rfl | he''
      · rw [hn] at hp; cases hp
      · exact ins e' he'' p hp
    | some remote =>
      cases hd : e.isDir with
      | true =>
        simp only [archLoop, hn, hd, if_pos] at hflag ⊢
        obtain ⟨mono, ins⟩ := ih (dtAddDir dt remote) hflag
        refine ⟨fun q hq => mono q (mem_dtPaths_dtAddDir hq), ?_⟩
        intro e' he' p hp
        rcases List.mem_cons.1 he' with rfl | he''
        · rw [hn] at hp
          cases hp
          exact mono _ mem_dtPaths_dtAddDir_self
        · exact ins e' he'' p hp
      | false =>
        by_cases hr : remote = []
        · subst hr
          simp only [archLoop, hn, hd] at hflag
          simp at hflag
        · simp only [archLoop, hn, hd, Bool.false_eq_true, if_false,
            if_neg hr] at hflag ⊢
          obtain ⟨mono, ins⟩ :=
            ih (dtAdd dt (DEntry.file remote e.size)) hflag
          refine ⟨fun q hq => mono q (mem_dtPaths_dtAdd hq), ?_⟩
          intro e' he' p hp
          rcases List.mem_cons.1 he' with rfl | he''
          · rw [hn] at hp
            cases hp
            exact mono _
              (mem_dtPaths_dtAdd_self (t := dt) (e := DEntry.file remote e'.size))
          · exact ins e' he'' p hp

/-- After the whole build (when the single-object case was not hit), every
proper ancestor of the normalized path of every accepted entry is a key of
the resulting tree. -/
theorem archBuild_ancestor_key {norm : GoStr → Option GoStr} {root : GoStr}
    {entries : List RawEntry} {e : RawEntry} {p a : GoStr}
    (hflag : (archBuild norm root entries).2 = false)
    (he : e ∈ entries) (hp : norm e.name = some p)
    (ha : a ∈ properAncestors p) :
    a ∈ dtKeys (archBuild norm root entries).1 := by
  unfold archBuild at hflag ⊢
  have hp' : p ∈ dtPaths (archLoop norm root entries dtNew).1 :=
    (archLoop_paths norm root entries dtNew hflag).2 e he p hp
  simpa [dtKeys_dtSort] using mem_dtKeys_checkParents hp' ha

/-- C3: in both backends, whenever the build accepts its entry list without
entering single-object mode, every directory path that is a proper ancestor
of the normalized path of an accepted entry is present as a key of the
built tree — whether or not an explicit directory record existed for it. -/
theorem claimC3_ancestor_dirs (pre root : GoStr)
    (zfiles : List (GoStr × Int)) (walk : List RawEntry) (a : GoStr) :
    (∀ nm sz p, (nm, sz) ∈ zfiles → zipNorm pre root nm = some p →
      a ∈ properAncestors p → (readZip pre root zfiles).2 = false →
      a ∈ dtKeys (readZip pre root zfiles).1) ∧
    (∀ e ∈ walk, ∀ p, sqNorm pre root e.name = some p →
      a ∈ properAncestors p → (readSquashfs pre root walk).2 = false →
      a ∈ dtKeys (readSquashfs pre root walk).1) := by
  constructor
  · intro nm sz p hmem hnorm ha hflag
    have hmem' : zipEntry nm sz ∈ zipEntries zfiles :=
      List.mem_map_of_mem (fun f => zipEntry f.1 f.2) hmem
    unfold readZip at hflag ⊢
    exact archBuild_ancestor_key hflag hmem' hnorm ha
  · intro e hmem p hnorm ha hflag
    exact archBuild_ancestor_key hflag hmem hnorm ha

set_option maxHeartbeats 2000000 in
/-- C3 witness: the statement applied to the archives holding the single
file "a/b" with no explicit directory records; the ancestor directory "a"
is a key of both built trees. -/
theorem claimC3_ancestor_dirs_witness :
    ['a'] ∈ dtKeys (readZip [] [] [(['a', '/', 'b'], 2)]).1 ∧
    ['a'] ∈ dtKeys (readSquashfs [] [] [⟨['a', '/', 'b'], false, 2⟩]).1 :=
  ⟨(claimC3_ancestor_dirs [] [] [(['a', '/', 'b'], 2)]
      [⟨['a', '/', 'b'], false, 2⟩] ['a']).1 ['a', '/', 'b'] 2 ['a', '/', 'b']
      (by decide) (by decide) (by decide) (by decide),
   (claimC3_ancestor_dirs [] [] [(['a', '/', 'b'], 2)]
      [⟨['a', '/', 'b'], false, 2⟩] ['a']).2 ⟨['a', '/', 'b'], false, 2⟩
      (by decide) ['a', '/', 'b'] (by decide) (by decide) (by decide)⟩

/-- The accumulator invariant of afterLastSlash: starting slash-free it
stays slash-free. -/
theorem foldl_afterLast_no_slash (p : GoStr) :
    ∀ acc : GoStr, '/' ∉ acc →
      '/' ∉ p.foldl (fun a c => if c = '/' then [] else a ++ [c]) acc := by
  induction p with
  | nil => intro acc h; exact h
  | cons c cs ih =>
    intro acc h
    simp only [List.foldl_cons]
    by_cases hc : c = '/'
    · rw [if_pos hc]
      exact ih [] (by simp)
    · rw [if_neg hc]
      refine ih (acc ++ [c]) ?_
      intro hmem
      rcases List.mem_append.1 hmem with hmem | hmem
      · exact h hmem
      · exact hc (List.mem_singleton.1 hmem).symm

/-- afterLastSlash never contains a separator. -/
theorem afterLastSlash_no_slash (p : GoStr) : '/' ∉ afterLastSlash p :=
  foldl_afterLast_no_slash p [] (by simp)

/-- path.Base yields either "/" or a string free of separators. -/
theorem pathBase_cases (p : GoStr) :
    pathBase p = ['/'] ∨ '/' ∉ pathBase p := by
  by_cases hp : p = []
  · right
    simp only [pathBase, if_pos hp]
    decide
  · simp only [pathBase, if_neg hp]
    by_cases hr : afterLastSlash (dropTrailingSlashes p) = []
    · left
      rw [if_pos hr]
    · right
      rw [if_neg hr]
      exact afterLastSlash_no_slash _

/-- A separator-free path has an empty before-last-slash part. -/
theorem beforeLastSlashIncl_eq_nil {p : GoStr} (h : '/' ∉ p) :
    beforeLastSlashIncl p = [] := by
  unfold beforeLastSlashIncl
  have hrev : p.reverse.dropWhile (fun c => decide (c ≠ '/')) = [] := by
    rw [List.dropWhile_eq_nil_iff]
    intro x hx
    simp only [ne_eq, decide_eq_true_eq]
    intro hx'
    exact h (by rw [← hx']; exact List.mem_reverse.1 hx)
  rw [hrev]
  rfl

/-- A separator-free path lives directly in the root directory. -/
theorem parentDir_no_slash {p : GoStr} (h : '/' ∉ p) :
    parentDir p = [] := by
  unfold parentDir pathDir
  rw [beforeLastSlashIncl_eq_nil h]
  rfl

/-- Splitting a separator-free path gives back the single segment. -/
theorem splitSlash_no_slash {p : GoStr} (h : '/' ∉ p) :
    splitSlash p = [p] := by
  induction p with
  | nil => rfl
  | cons c cs ih =>
    have hc : ¬ c = '/' := fun hc => h (by rw [hc]; exact List.mem_cons_self _ _)
    have hcs : '/' ∉ cs := fun hm => h (List.mem_cons_of_mem _ hm)
    simp only [splitSlash, ih hcs]
    rw [if_neg hc]

/-- The only proper ancestor of a separator-free path is the root. -/
theorem properAncestors_no_slash {p : GoStr} (h : '/' ∉ p) :
    properAncestors p = [[]] := by
  unfold properAncestors
  rw [splitSlash_no_slash h]
  rfl

/-- The final step of path.Clean never returns the empty string. -/
theorem if_nil_dot_ne_nil (s : GoStr) :
    (if s = [] then ['.'] else s) ≠ [] := by
  by_cases hs : s = []
  · rw [if_pos hs]
    decide
  · rw [if_neg hs]
    exact hs

/-- path.Clean never returns the empty string. -/
theorem pathClean_ne_nil (p : GoStr) : pathClean p ≠ [] := by
  unfold pathClean
  by_cases hp : p = []
  · rw [if_pos hp]
    decide
  · rw [if_neg hp]
    exact if_nil_dot_ne_nil _

/-- path.Join of two elements is empty only when both are. -/
theorem pathJoin_eq_nil {a b : GoStr} (h : pathJoin a b = []) :
    a = [] ∧ b = [] := by
  unfold pathJoin at h
  by_cases ha : a = []
  · rw [if_pos ha] at h
    by_cases hb : b = []
    · exact ⟨ha, hb⟩
    · rw [if_neg hb] at h
      exact absurd h (pathClean_ne_nil b)
  · rw [if_neg ha] at h
    by_cases hb : b = []
    · rw [if_pos hb] at h
      exact absurd h (pathClean_ne_nil a)
    · rw [if_neg hb] at h
      exact absurd h (pathClean_ne_nil _)

/-- When some file entry of the list normalizes to the empty path, the
entry loop ends in the single-object state: a fresh tree holding exactly
one file named path.Base(root), and the true flag. -/
theorem archLoop_single (norm : GoStr → Option GoStr) (root : GoStr) :
    ∀ (es : List RawEntry) (dt : DirTree) (e : RawEntry),
      e ∈ es → e.isDir = false → norm e.name = some [] →
      ∃ sz, archLoop norm root es dt =
        (dtAdd dtNew (DEntry.file (pathBase root) sz), true) := by
  intro es
  induction es with
  | nil => intro dt e he; simp at he
  | cons h hs ih =>
    intro dt e he hd hn
    cases hn' : norm h.name with
    | none =>
      rcases List.mem_cons.1 he with rfl | he'
      · rw [hn'] at hn; cases hn
      · simp only [archLoop, hn']
        exact ih dt e he' hd hn
    | some r =>
      cases hhd : h.isDir with
      | true =>
        rcases List.mem_cons.1 he with rfl | he'
        · rw [hhd] at hd; cases hd
        · simp only [archLoop, hn', hhd, if_pos]
          exact ih _ e he' hd hn
      | false =>
        by_cases hr : r = []
        · subst hr
          refine ⟨h.size, ?_⟩
          simp [archLoop, hn', hhd]
        · rcases List.mem_cons.1 he with rfl | he'
          · rw [hn'] at hn
            cases hn
            exact absurd rfl hr
          · simp only [archLoop, hn', hhd, Bool.false_eq_true, if_false,
              if_neg hr]
            exact ih _ e he' hd hn

set_option maxHeartbeats 4000000 in
/-- CheckParents and Sort leave the one-file single-object tree with
exactly that one file as its only child. -/
theorem single_tree_children (root : GoStr) (sz : Int) :
    dtChildren (dtSort (dtCheckParents
      (dtAdd dtNew (DEntry.file (pathBase root) sz)))) =
      [DEntry.file (pathBase root) sz] := by
  rcases pathBase_cases root with hb | hb
  · rw [hb]
    rfl
  · have hpd : parentDir (pathBase root) = [] := parentDir_no_slash hb
    have ht : dtAdd dtNew (DEntry.file (pathBase root) sz) =
        [([], [DEntry.file (pathBase root) sz])] := by
      unfold dtAdd dtNew
      rw [show DEntry.remote (DEntry.file (pathBase root) sz) = pathBase root
        from rfl, hpd]
      rfl
    rw [ht]
    have hpaths : dtPaths [([], [DEntry.file (pathBase root) sz])] =
        [[], pathBase root] := by
      simp [dtPaths, dtKeys, DEntry.remote]
    unfold dtCheckParents
    rw [hpaths]
    have hanc0 : properAncestors ([] : GoStr) = [[]] := by decide
    have hancb : properAncestors (pathBase root) = [[]] :=
      properAncestors_no_slash hb
    simp only [List.foldl_cons, List.foldl_nil, hanc0, hancb]
    have hstep : dtEnsureDir [([], [DEntry.file (pathBase root) sz])] [] =
        [([], [DEntry.file (pathBase root) sz])] := by
      unfold dtEnsureDir
      rw [if_pos rfl]
      exact dtEnsureKey_eq_of_mem (by simp [dtKeys])
    rw [hstep, hstep]
    rfl

/-- When an accepted file entry normalizes to the empty path (it is the
root), the whole build reports single-object mode and its tree holds
exactly one file, named path.Base(root). -/
theorem archBuild_single {norm : GoStr → Option GoStr} (root : GoStr)
    {entries : List RawEntry} {e : RawEntry}
    (he : e ∈ entries) (hd : e.isDir = false)
    (hn : norm e.name = some []) :
    (archBuild norm root entries).2 = true ∧
    ∃ sz, dtChildren (archBuild norm root entries).1 =
      [DEntry.file (pathBase root) sz] := by
  obtain ⟨sz, hloop⟩ := archLoop_single norm root entries dtNew e he hd hn
  unfold archBuild
  rw [hloop]
  exact ⟨rfl, sz, single_tree_children root sz⟩

/-- C4: in both backends, when some file entry's normalized path is the
empty string (the root names that file), the build discards any partially
built tree, stops, reports single-object mode, and the resulting tree holds
exactly one file entry named path.Base(root); when root is empty this can
only happen with an empty prefix, so that name also equals
path.Base(prefix). -/
theorem claimC4_single_object (pre root : GoStr)
    (zfiles : List (GoStr × Int)) (walk : List RawEntry)
    (znm : GoStr) (zsz : Int) (se : RawEntry)
    (hz : (znm, zsz) ∈ zfiles) (hzd : goHasSuffix znm ['/'] = false)
    (hzn : zipNorm pre root znm = some [])
    (hs : se ∈ walk) (hsd : se.isDir = false)
    (hsn : sqNorm pre root se.name = some []) :
    (readZip pre root zfiles).2 = true ∧
    (∃ sz, dtChildren (readZip pre root zfiles).1 =
      [DEntry.file (pathBase root) sz]) ∧
    (readSquashfs pre root walk).2 = true ∧
    (∃ sz, dtChildren (readSquashfs pre root walk).1 =
      [DEntry.file (pathBase root) sz]) ∧
    (root = [] → pathBase root = pathBase pre) := by
  have hzmem : zipEntry znm zsz ∈ zipEntries zfiles :=
    List.mem_map_of_mem (fun f => zipEntry f.1 f.2) hz
  have hzdir : (zipEntry znm zsz).isDir = false := hzd
  have hzname : zipNorm pre root (zipEntry znm zsz).name = some [] := hzn
  have hzres := archBuild_single root hzmem hzdir hzname
  have hsres := archBuild_single root hs hsd hsn
  refine ⟨hzres.1, hzres.2, hsres.1, hsres.2, ?_⟩
  intro hroot
  subst hroot
  have hjoin : pathJoin pre (zipCleanName znm) = [] := by
    simp [zipNorm, relPath] at hzn
    exact hzn
  rw [(pathJoin_eq_nil hjoin).1]

set_option maxHeartbeats 2000000 in
/-- C4 witness: a zip and a squashfs archive each holding the file "a",
read with root "a": the build reports single-object mode and the tree holds
exactly the one file named "a" = path.Base("a"). -/
theorem claimC4_single_object_witness :
    (readZip [] ['a'] [(['a'], 5)]).2 = true ∧
    (∃ sz, dtChildren (readZip [] ['a'] [(['a'], 5)]).1 =
      [DEntry.file (pathBase ['a']) sz]) ∧
    (readSquashfs [] ['a'] [⟨['a'], false, 5⟩]).2 = true ∧
    (∃ sz, dtChildren (readSquashfs [] ['a'] [⟨['a'], false, 5⟩]).1 =
      [DEntry.file (pathBase ['a']) sz]) ∧
    (['a'] = ([] : GoStr) → pathBase ['a'] = pathBase []) :=
  claimC4_single_object [] ['a'] [(['a'], 5)] [⟨['a'], false, 5⟩]
    ['a'] 5 ⟨['a'], false, 5⟩ (by decide) (by decide) (by decide)
    (by decide) (by decide) (by decide)

end ArchiveFs
